import Mathlib

/-!
Verification of the emote_shuffler repository's core.

The source of truth is `src/src/lib.rs` (`SevenTvGqlClient::shuffle_set`,
`get_emote_set`, `rename_emote`) and `src/src/util.rs`.  The planner in
`shuffle_set` (lines 131-175) is a pure computation over the fetched emote
set and the shuffled name list; we embed it shallowly: Rust `HashMap`s built
by `collect` become association lists with last-insertion-wins lookup, the
unbounded `loop` becomes a fuel-indexed recursion, and the `.unwrap()` calls
become an explicit error outcome.
-/

/-- An entry of the fetched emote set: `set.emotes[i]` has an `id` and a `name`
(`get_emote_set` response items used by `shuffle_set`). -/
structure Emote where
  id : String
  name : String
deriving DecidableEq

/-- The temporary name the planner pushes to open every cycle.
`src/src/lib.rs:160` pushes the string literal `"temp"`
(`ops.push((emotes.get(first).unwrap(), "temp"))`); the random generator
`gen_temp_name` from `src/src/util.rs` is never called. -/
def tempName : String := "temp"

/-- Association-list lookup keyed on the first component, first match wins. -/
def alookup (k : String) : List (String × String) → Option String
  | [] => none
  | p :: rest => if p.1 = k then some p.2 else alookup k rest

/-- Lookup in a Rust `HashMap` built by `collect` from a pair list: a later
insertion overwrites an earlier one with the same key, so the lookup finds the
last matching pair. -/
def hmGet (l : List (String × String)) (k : String) : Option String :=
  alookup k l.reverse

/-- Failure outcomes of the embedded planner: `lookupFailed` stands for one of
the `.unwrap()` calls on a `HashMap` lookup in `shuffle_set` hitting `None`
(a Rust panic), `fuelExhausted` for the inner `loop` failing to finish within
the fuel bound (the Rust loop would still be running). -/
inductive PlanError
  | lookupFailed
  | fuelExhausted
deriving DecidableEq

/-- The inner `loop` of `shuffle_set` (src/src/lib.rs:162-174), one fuel unit
per iteration.  `mp` is the target-name-to-original-name map, `em` the
original-name-to-id map, `first` the name that opened the cycle.  The branch
`curTarget = original` models the `continue` statement at line 169, which
re-enters the loop with unchanged state. -/
def walk (mp em : List (String × String)) (first : String) :
    Nat → String → List (String × String) → List String →
    Except PlanError (List (String × String) × List String)
  | 0, _, _, _ => .error .fuelExhausted
  | fuel + 1, curTarget, ops, renamed =>
    match hmGet mp curTarget with
    | none => .error .lookupFailed
    | some original =>
      if original = first then
        match hmGet em first with
        | none => .error .lookupFailed
        | some fid => .ok (ops ++ [(fid, curTarget)], renamed)
      else if curTarget = original then
        walk mp em first fuel curTarget ops renamed
      else
        match hmGet em original with
        | none => .error .lookupFailed
        | some oid =>
          walk mp em first fuel original (ops ++ [(oid, curTarget)]) (original :: renamed)

/-- The outer `for name in names` loop of `shuffle_set` (src/src/lib.rs:155-175):
skip names already in `renamed`, otherwise push the temp-name op for the item
currently holding `name` and walk its cycle. -/
def planLoop (mp em : List (String × String)) (fuel : Nat) :
    List String → List (String × String) → List String →
    Except PlanError (List (String × String))
  | [], ops, _ => .ok ops
  | n :: rest, ops, renamed =>
    if n ∈ renamed then planLoop mp em fuel rest ops renamed
    else
      match hmGet em n with
      | none => .error .lookupFailed
      | some fid =>
        match walk mp em n fuel n (ops ++ [(fid, tempName)]) renamed with
        | .error e => .error e
        | .ok (ops2, renamed2) => planLoop mp em fuel rest ops2 renamed2

/-- The map built at src/src/lib.rs:138-142: target name (shuffled position)
to original name at the same position. -/
def mkMp (emotes : List Emote) (names : List String) : List (String × String) :=
  names.zip (emotes.map Emote.name)

/-- The map built at src/src/lib.rs:145-149: original name to emote id. -/
def mkEm (emotes : List Emote) : List (String × String) :=
  emotes.map fun e => (e.name, e.id)

/-- The planning phase of `shuffle_set` (src/src/lib.rs:131-175): from the
fetched emote list and the already-shuffled name list (`names[i]` is the target
name for `emotes[i]`), build the two maps and run the planning loop, producing
the ordered `(source id, target name)` rename operations.  The fuel
`names.length + 1` is a totality device for the unbounded Rust `loop`; the
termination theorems below show it is never exhausted on valid input. -/
def shufflePlan (emotes : List Emote) (names : List String) :
    Except PlanError (List (String × String)) :=
  if names.isEmpty then .ok []
  else planLoop (mkMp emotes names) (mkEm emotes) (names.length + 1) names [] []

/-- The remote state: each item's id paired with the name it currently holds. -/
def initState (emotes : List Emote) : List (String × String) :=
  emotes.map fun e => (e.id, e.name)

/-- Effect of one rename operation `(id, newName)` on the remote state: the
item with that id now holds `newName`. -/
def applyOp (st : List (String × String)) (op : String × String) : List (String × String) :=
  st.map fun p => if p.1 = op.1 then (p.1, op.2) else p

/-- Effect of a rename sequence applied strictly in order. -/
def applyOps (st : List (String × String)) (ops : List (String × String)) :
    List (String × String) :=
  ops.foldl applyOp st

/-- No two items hold the same name in state `st`. -/
def namesOk (st : List (String × String)) : Prop :=
  (st.map Prod.snd).Nodup

instance (st : List (String × String)) : Decidable (namesOk st) := by
  unfold namesOk; infer_instance

/-!
The execution loop (src/src/lib.rs:189-194): each planned op in order ticks
the interval, calls `rename_emote` and propagates its failure immediately via
`?`; there is no retry and no rollback.
-/

/-- One executor run over the planned ops.  `outcome k` abstracts whether the
k-th (0-based) remote rename call succeeds.  Returns the list of rename calls
attempted (in order), the remote state reached, and — when the run stopped
early — the index and content of the failing operation. -/
def executeRun (outcome : Nat → Bool) :
    List (String × String) → Nat → List (String × String) →
    List (String × String) × List (String × String) × Option (Nat × String × String)
  | [], _, st => ([], st, none)
  | op :: rest, k, st =>
    if outcome k then
      let r := executeRun outcome rest (k + 1) (applyOp st op)
      (op :: r.1, r.2)
    else ([op], st, some (k, op.1, op.2))

/-!
The remote-call layer of src/src/lib.rs, after the transport: `get_emote_set`
(lines 80-93) and `rename_emote` (lines 95-124) each receive either a
transport failure (`reqwest::Error`, covering both `send()` and `json()`)
or a parsed `graphql_client::Response` body.
-/

/-- One `graphql_client::Error` attached to a response. -/
structure GqlError where
  message : String
deriving DecidableEq

/-- A transport-level failure (`reqwest::Error`). -/
structure RequestFailure where
  message : String
deriving DecidableEq

/-- `graphql_client::Response<T>`: optional data and optional error list. -/
structure GqlResponse (α : Type) where
  data : Option α
  errors : Option (List GqlError)

/-- The error enum `SevenTvGqlError` (src/src/lib.rs:17-25). -/
inductive SevenTvGqlError
  | UserNotFound
  | EmoteRenameFailed (errors : List GqlError)
  | RequestError (e : RequestFailure)
deriving DecidableEq

/-- Outcome of a Rust function whose body may also panic: `panicked` stands
for a call of `Option::unwrap` on `None`, which aborts the process instead of
returning a `Result`. -/
inductive RustOutcome (α : Type)
  | ok (a : α)
  | err (e : SevenTvGqlError)
  | panicked

/-- The `data` payload of the `GetEmoteSet` query. -/
structure GetEmoteSetData where
  emote_set : List Emote

/-- `get_emote_set` (src/src/lib.rs:80-93): a transport failure is surfaced
via `?` as `RequestError`, but a response body whose `data` is `None` hits
`response_body.data.unwrap()` at line 92 — a panic, not an error return.  The
`errors` field of the response body is never inspected by this function. -/
def get_emote_set (resp : Except RequestFailure (GqlResponse GetEmoteSetData)) :
    RustOutcome (List Emote) :=
  match resp with
  | .error e => .err (.RequestError e)
  | .ok body =>
    match body.data with
    | none => .panicked
    | some d => .ok d.emote_set

/-- `rename_emote` (src/src/lib.rs:95-124): a transport failure becomes
`RequestError`; a response body carrying an error list (even an empty one)
becomes `EmoteRenameFailed`; otherwise the rename succeeded. -/
def rename_emote (resp : Except RequestFailure (GqlResponse Unit)) :
    RustOutcome Unit :=
  match resp with
  | .error e => .err (.RequestError e)
  | .ok body =>
    match body.errors with
    | some errs => .err (.EmoteRenameFailed errs)
    | none => .ok ()

/-!
Rate pacing.  Modelled from the spec: the timer is
`tokio::time::interval(Duration::from_secs_f64(60.0 / 100.0))` with
`MissedTickBehavior::Skip` (src/src/lib.rs:177-178); the timer implementation
itself is not code of this repository.  Per the spec, the interval keeps a
next scheduled deadline: awaiting a tick at or before the deadline completes
at the deadline and schedules the next tick one period later; awaiting after
the deadline completes immediately, and the next deadline skips the missed
ticks, moving to the first schedule point strictly after the completion time
(missed ticks are dropped, never queued).
-/

/-- The rate-limiting timer: fixed period and next scheduled deadline. -/
structure TickInterval where
  period : ℚ
  deadline : ℚ

/-- Awaiting one tick at time `now`: returns the completion time and the
interval with its next deadline. -/
def TickInterval.tick (iv : TickInterval) (now : ℚ) : ℚ × TickInterval :=
  if now ≤ iv.deadline then
    (iv.deadline, ⟨iv.period, iv.deadline + iv.period⟩)
  else
    (now, ⟨iv.period,
      iv.deadline + iv.period * ((⌊(now - iv.deadline) / iv.period⌋ : ℚ) + 1)⟩)

/-- Tick completion times of the executor loop: each op awaits a tick, then
its rename call takes the corresponding duration before the next await. -/
def execSchedule (iv : TickInterval) (now : ℚ) : List ℚ → List ℚ
  | [] => []
  | d :: rest =>
    let t := iv.tick now
    t.1 :: execSchedule t.2 (t.1 + d) rest

/-- The executor's tick period in seconds: `60.0 / 100.0`
(src/src/lib.rs:177), i.e. `60 / R` for the hard-coded rate `R = 100`
operations per minute. -/
def executorPeriod : ℚ := 60 / 100

/-- Fire times of a run whose k-th rename call takes `durs[k]` seconds, the
interval created and first awaited at time 0 (the first tick of a tokio
interval completes immediately). -/
def executorFireTimes (durs : List ℚ) : List ℚ :=
  execSchedule ⟨executorPeriod, 0⟩ 0 durs

/-!
State-tracking infrastructure for the correctness of the planner.  A remote
state reached during execution is described by a value function on the items:
`stOf f` pairs each emote's id with the name `f` assigns to it given its
positional target.  `midFun L tw` is the mid-plan description: the item whose
original name is the currently walked cycle opener `tw` holds the temp name,
items whose original name is in the resolved list `L` hold their positional
target, all others still hold their original name.
-/

def stOf (f : Emote → String → String) (emotes : List Emote) (names : List String) :
    List (String × String) :=
  List.zipWith (fun e t => (e.id, f e t)) emotes names

def midFun (L : List String) (tw : Option String) : Emote → String → String :=
  fun e t => if tw = some e.name then tempName else if e.name ∈ L then t else e.name

-- Sanity checks of the embedding against the source's behaviour.

/-- Two-element swap: the planner frees the head of the shuffled name list
first, then pulls the cycle through, matching `shuffle_set` on
`[(A, x), (B, y)]` with shuffled names `[y, x]`. -/
example :
    shufflePlan [⟨"A", "x"⟩, ⟨"B", "y"⟩] ["y", "x"] =
      .ok [("B", "temp"), ("A", "y"), ("B", "x")] := by rfl

/-- Three-cycle `x → y → z → x` as shuffled to `[y, z, x]`. -/
example :
    shufflePlan [⟨"A", "x"⟩, ⟨"B", "y"⟩, ⟨"C", "z"⟩] ["y", "z", "x"] =
      .ok [("B", "temp"), ("A", "y"), ("C", "x"), ("B", "z")] := by rfl

/-- Empty set: no operations. -/
example : shufflePlan [] [] = .ok [] := by rfl

-- Unfolding lemmas: one per control-flow branch of the source loops.

theorem walk_fuelOut (mp em : List (String × String)) (first cur : String)
    (ops : List (String × String)) (renamed : List String) :
    walk mp em first 0 cur ops renamed = .error .fuelExhausted := rfl

theorem walk_close (mp em : List (String × String)) (first cur fid : String)
    (fuel : Nat) (ops : List (String × String)) (renamed : List String)
    (hmp : hmGet mp cur = some first) (hem : hmGet em first = some fid) :
    walk mp em first (fuel + 1) cur ops renamed = .ok (ops ++ [(fid, cur)], renamed) := by
  simp only [walk, hmp, if_pos rfl, if_true, hem]

theorem walk_spin (mp em : List (String × String)) (first cur : String)
    (fuel : Nat) (ops : List (String × String)) (renamed : List String)
    (hmp : hmGet mp cur = some cur) (hne : cur ≠ first) :
    walk mp em first (fuel + 1) cur ops renamed = walk mp em first fuel cur ops renamed := by
  simp only [walk, hmp, if_neg hne, if_pos rfl, if_true]

theorem walk_pull (mp em : List (String × String)) (first cur orig oid : String)
    (fuel : Nat) (ops : List (String × String)) (renamed : List String)
    (hmp : hmGet mp cur = some orig) (hne : orig ≠ first) (hne2 : cur ≠ orig)
    (hem : hmGet em orig = some oid) :
    walk mp em first (fuel + 1) cur ops renamed =
      walk mp em first fuel orig (ops ++ [(oid, cur)]) (orig :: renamed) := by
  simp only [walk, hmp, if_neg hne, if_neg hne2, hem]

theorem planLoop_nil (mp em : List (String × String)) (fuel : Nat)
    (ops : List (String × String)) (renamed : List String) :
    planLoop mp em fuel [] ops renamed = .ok ops := rfl

theorem planLoop_skip (mp em : List (String × String)) (fuel : Nat) (n : String)
    (rest : List String) (ops : List (String × String)) (renamed : List String)
    (h : n ∈ renamed) :
    planLoop mp em fuel (n :: rest) ops renamed = planLoop mp em fuel rest ops renamed := by
  simp only [planLoop, if_pos h]

theorem planLoop_walk_ok (mp em : List (String × String)) (fuel : Nat) (n fid : String)
    (rest : List String) (ops ops2 : List (String × String)) (renamed renamed2 : List String)
    (h : n ∉ renamed) (hem : hmGet em n = some fid)
    (hw : walk mp em n fuel n (ops ++ [(fid, tempName)]) renamed = .ok (ops2, renamed2)) :
    planLoop mp em fuel (n :: rest) ops renamed = planLoop mp em fuel rest ops2 renamed2 := by
  simp only [planLoop, if_neg h, hem, hw]

theorem planLoop_walk_err (mp em : List (String × String)) (fuel : Nat) (n fid : String)
    (rest : List String) (ops : List (String × String)) (renamed : List String)
    (e : PlanError) (h : n ∉ renamed) (hem : hmGet em n = some fid)
    (hw : walk mp em n fuel n (ops ++ [(fid, tempName)]) renamed = .error e) :
    planLoop mp em fuel (n :: rest) ops renamed = .error e := by
  simp only [planLoop, if_neg h, hem, hw]

-- The inner loop diverges on a concrete non-permutation input: with emotes
-- `[(A, a), (B, b), (C, b)]` and shuffled names `["b", "b", "a"]` the maps are
-- mp = [("b","a"), ("b","b"), ("a","b")] (the second insert for key "b"
-- overwrites the first) and em = [("a","A"), ("b","B"), ("b","C")], and the
-- walk opened at "a" reaches curTarget = "b" with mp["b"] = "b" ≠ "a": the
-- `continue` branch at src/src/lib.rs:169 then re-runs forever.

theorem walk_dup_diverges :
    ∀ (fuel : Nat) (ops : List (String × String)) (renamed : List String),
      walk [("b", "a"), ("b", "b"), ("a", "b")] [("a", "A"), ("b", "B"), ("b", "C")]
        "a" fuel "b" ops renamed = .error .fuelExhausted := by
  intro fuel
  induction fuel with
  | zero => intro ops renamed; rfl
  | succ f ih =>
    intro ops renamed
    rw [walk_spin _ _ _ _ _ _ _ (by rfl) (by decide)]
    exact ih ops renamed

theorem planLoop_dup_diverges :
    ∀ (fuel : Nat),
      planLoop [("b", "a"), ("b", "b"), ("a", "b")] [("a", "A"), ("b", "B"), ("b", "C")]
        fuel ["b", "b", "a"] [] [] = .error .fuelExhausted := by
  intro fuel
  cases fuel with
  | zero =>
    exact planLoop_walk_err _ _ _ _ "C" _ _ _ _ (by decide) (by rfl) (by rfl)
  | succ f =>
    rw [planLoop_walk_ok _ _ _ _ "C" _ _ _ _ _ (by decide) (by rfl)
      (walk_close _ _ _ _ "C" _ _ _ (by rfl) (by rfl))]
    rw [planLoop_walk_ok _ _ _ _ "C" _ _ _ _ _ (by decide) (by rfl)
      (walk_close _ _ _ _ "C" _ _ _ (by rfl) (by rfl))]
    refine planLoop_walk_err _ _ _ _ "A" _ _ _ _ (by decide) (by rfl) ?hw
    rw [walk_pull _ _ _ _ "b" "C" _ _ _ (by rfl) (by decide) (by decide) (by rfl)]
    exact walk_dup_diverges f _ _

/-- Claim C2, counterexample: a single item whose target name equals its
current name (the identity permutation on `[(A, a)]`) generates two
operations, `(A, temp)` and `(A, a)`, not zero. -/
theorem fixed_point_emits_ops_cex :
    ([(⟨"A", "a"⟩ : Emote)].map Emote.name = ["a"]) ∧
    shufflePlan [⟨"A", "a"⟩] ["a"] = .ok [("A", "temp"), ("A", "a")] ∧
    ¬ ([("A", "temp"), ("A", "a")] = ([] : List (String × String))) := by
  exact ⟨rfl, rfl, by decide⟩

/-- Claim C2, amended: an item whose target name equals its current name
(`hmGet mp x = some x`) and that has not been marked renamed is not skipped by
the planning loop: it generates exactly two operations, a rename of its item to
the constant temporary name and a rename back to its own name. -/
theorem planLoop_fixedPoint_two_ops (mp em : List (String × String)) (fuel : Nat)
    (x i : String) (rest : List String) (ops : List (String × String))
    (renamed : List String)
    (hmp : hmGet mp x = some x) (hem : hmGet em x = some i) (hren : x ∉ renamed) :
    planLoop mp em (fuel + 1) (x :: rest) ops renamed =
      planLoop mp em (fuel + 1) rest (ops ++ [(i, tempName), (i, x)]) renamed := by
  have hw : walk mp em x (fuel + 1) x (ops ++ [(i, tempName)]) renamed =
      .ok (ops ++ [(i, tempName), (i, x)], renamed) := by
    rw [walk_close mp em x x i fuel _ _ hmp hem, List.append_assoc]
    rfl
  exact planLoop_walk_ok mp em (fuel + 1) x i rest ops _ renamed renamed hren hem hw

/-- Witness for `planLoop_fixedPoint_two_ops` at a concrete fixed point. -/
theorem planLoop_fixedPoint_two_ops_witness :
    planLoop [("n", "n")] [("n", "I")] 1 ["n"] [] [] =
      planLoop [("n", "n")] [("n", "I")] 1 [] [("I", tempName), ("I", "n")] [] :=
  planLoop_fixedPoint_two_ops [("n", "n")] [("n", "I")] 0 "n" "I" [] [] []
    (by rfl) (by rfl) (by decide)

/-- Claim C3: the temporary name used to open every cycle is the constant
string literal `"temp"` (src/src/lib.rs:160), not a randomly generated
fixed-length alphanumeric string, and it is not guaranteed distinct from the
names held by the items: on a set that already contains an emote named
`"temp"`, the very first operation renames another item to `"temp"` while the
original holder still has it, so two items then hold the same name. -/
theorem tempName_is_constant_and_collides :
    tempName = "temp" ∧
    (⟨"A", "temp"⟩ : Emote).name = tempName ∧
    shufflePlan [⟨"A", "temp"⟩, ⟨"B", "b"⟩] ["b", "temp"] =
      .ok [("B", "temp"), ("A", "b"), ("B", "temp")] ∧
    ¬ namesOk (applyOps (initState [⟨"A", "temp"⟩, ⟨"B", "b"⟩]) [("B", "temp")]) := by
  exact ⟨rfl, rfl, rfl, by decide⟩

/-- Claim C4, counterexample: the identity permutation on two items (every
name a fixed point, so zero non-trivial cycles, and the claimed bound is
`n + c = 2 + 0`) produces four operations. -/
theorem opcount_exceeds_nontrivial_bound_cex :
    ([(⟨"A", "a"⟩ : Emote), ⟨"B", "b"⟩].map Emote.name = ["a", "b"]) ∧
    shufflePlan [⟨"A", "a"⟩, ⟨"B", "b"⟩] ["a", "b"] =
      .ok [("A", "temp"), ("A", "a"), ("B", "temp"), ("B", "b")] ∧
    ¬ ([("A", "temp"), ("A", "a"), ("B", "temp"), ("B", "b")].length ≤ 2 + 0) := by
  exact ⟨rfl, rfl, by decide⟩

/-- Claim C6, counterexample: invoked on a set with duplicate names
`[(A, a), (B, a)]` (so the shuffled list `["a", "a"]` is not a valid
permutation of unique names), the planner reports no error: it silently
returns an operation sequence, one that renames item `B` twice through the
temp name and back and never touches item `A`. -/
theorem dup_names_ok_cex :
    shufflePlan [⟨"A", "a"⟩, ⟨"B", "a"⟩] ["a", "a"] =
      .ok [("B", "temp"), ("B", "a"), ("B", "temp"), ("B", "a")] := by rfl

/-- Claim C6, amended: the planner performs no defensive uniqueness check and
never reports a precondition error.  On non-unique input names it either
silently produces an operation sequence (here one that renames only item `B`,
twice, and leaves the duplicate-name state in place), or its inner loop spins
forever in the `continue` branch: on `[(A, a), (B, b), (C, b)]` shuffled to
`["b", "b", "a"]` the planning loop fails to finish for every fuel bound. -/
theorem dup_names_silent_or_divergent :
    (shufflePlan [⟨"A", "a"⟩, ⟨"B", "a"⟩] ["a", "a"] =
        .ok [("B", "temp"), ("B", "a"), ("B", "temp"), ("B", "a")] ∧
      applyOps (initState [⟨"A", "a"⟩, ⟨"B", "a"⟩])
          [("B", "temp"), ("B", "a"), ("B", "temp"), ("B", "a")] =
        [("A", "a"), ("B", "a")]) ∧
    shufflePlan [⟨"A", "a"⟩, ⟨"B", "b"⟩, ⟨"C", "b"⟩] ["b", "b", "a"] =
      .error .fuelExhausted ∧
    ∀ (fuel : Nat),
      planLoop [("b", "a"), ("b", "b"), ("a", "b")] [("a", "A"), ("b", "B"), ("b", "C")]
        fuel ["b", "b", "a"] [] [] = .error .fuelExhausted := by
  exact ⟨⟨rfl, rfl⟩, planLoop_dup_diverges 4, planLoop_dup_diverges⟩

theorem executeRun_spec (outcome : Nat → Bool) :
    ∀ (ops : List (String × String)) (j k : Nat) (st : List (String × String))
      (hj : j < ops.length),
      (∀ i, i < j → outcome (k + i) = true) → outcome (k + j) = false →
      executeRun outcome ops k st =
        (ops.take (j + 1), applyOps st (ops.take j),
          some (k + j, (ops.get ⟨j, hj⟩).1, (ops.get ⟨j, hj⟩).2)) := by
  intro ops
  induction ops with
  | nil => intro j k st hj; exact absurd hj (by simp)
  | cons op rest ih =>
    intro j k st hj hpre hfail
    cases j with
    | zero =>
      simp only [executeRun, Nat.add_zero] at hfail ⊢
      rw [hfail]
      simp [applyOps]
    | succ j2 =>
      have hk : outcome k = true := by
        have := hpre 0 (Nat.succ_pos j2)
        simpa using this
      have hj2 : j2 < rest.length := Nat.lt_of_succ_lt_succ hj
      have ihh := ih j2 (k + 1) (applyOp st op) hj2
        (fun i hi => by
          have := hpre (i + 1) (Nat.succ_lt_succ hi)
          simpa [Nat.add_assoc, Nat.add_comm 1 i] using this)
        (by simpa [Nat.add_assoc, Nat.add_comm 1 j2] using hfail)
      simp only [executeRun, hk, if_true, ihh]
      simp [applyOps, Nat.add_assoc, Nat.add_comm 1 j2]

/-- Claim C7: if the first failing rename call is the one at 0-based index
`j` (the claim's k-th operation, `k = j + 1`), the executor attempts exactly
the first `j + 1` operations in order with no retries, surfaces that
operation's index and content as the failure, and the resulting remote state
is exactly the first `j` operations applied — no rollback. -/
theorem executor_stops_at_first_failure (outcome : Nat → Bool)
    (ops : List (String × String)) (j : Nat) (st : List (String × String))
    (hj : j < ops.length)
    (hpre : ∀ i, i < j → outcome i = true) (hfail : outcome j = false) :
    executeRun outcome ops 0 st =
      (ops.take (j + 1), applyOps st (ops.take j),
        some (j, (ops.get ⟨j, hj⟩).1, (ops.get ⟨j, hj⟩).2)) := by
  have h := executeRun_spec outcome ops j 0 st hj (fun i hi => by simpa using hpre i hi)
    (by simpa using hfail)
  simpa using h

/-- Witness for `executor_stops_at_first_failure`: three planned ops, the
second rename call fails; only the first two calls are attempted, the state
reflects exactly the first operation, and the failure names op 1. -/
theorem executor_stops_at_first_failure_witness :
    executeRun (fun k => !(k == 1)) [("A", "x"), ("B", "y"), ("C", "z")] 0
        [("A", "a0"), ("B", "b0"), ("C", "c0")] =
      ([("A", "x"), ("B", "y")], [("A", "x"), ("B", "b0"), ("C", "c0")],
        some (1, "B", "y")) := by
  have h := executor_stops_at_first_failure (fun k => !(k == 1))
    [("A", "x"), ("B", "y"), ("C", "z")] 1 [("A", "a0"), ("B", "b0"), ("C", "c0")]
    (by decide)
    (fun i hi => by
      have : i = 0 := by omega
      subst this; rfl)
    (by rfl)
  rw [h]
  rfl

/-- Claim C8: transport failures of the set fetch and every failure of a
rename call are surfaced as recoverable error values, but a set-fetch response
whose `data` field is absent (as a GraphQL server sends when it reports only
errors, e.g. for an unknown set id) makes `get_emote_set` panic through
`.unwrap()` at src/src/lib.rs:92 — fatal to the process, not a recoverable
result. -/
theorem get_emote_set_panics_on_missing_data :
    get_emote_set (.ok ⟨none, some [⟨"emote set not found"⟩]⟩) = .panicked ∧
    (∀ e, get_emote_set (.error e) = .err (.RequestError e)) ∧
    (∀ e, rename_emote (.error e) = .err (.RequestError e)) ∧
    (∀ errs, rename_emote (.ok ⟨none, some errs⟩) = .err (.EmoteRenameFailed errs)) ∧
    rename_emote (.ok ⟨none, none⟩) = .ok () := by
  exact ⟨rfl, fun e => rfl, fun e => rfl, fun errs => rfl, rfl⟩

theorem TickInterval.tick_period (iv : TickInterval) (now : ℚ) :
    (iv.tick now).2.period = iv.period := by
  unfold TickInterval.tick; split <;> rfl

theorem TickInterval.tick_fire_ge (iv : TickInterval) (now : ℚ) :
    iv.deadline ≤ (iv.tick now).1 := by
  unfold TickInterval.tick; split
  · exact le_refl _
  · exact le_of_lt (lt_of_not_le (by assumption))

theorem TickInterval.tick_deadline_ge (iv : TickInterval) (now : ℚ) (hp : 0 < iv.period) :
    iv.deadline + iv.period ≤ (iv.tick now).2.deadline := by
  unfold TickInterval.tick; split
  · exact le_refl _
  · have hlt : iv.deadline < now := lt_of_not_le (by assumption)
    have h0 : (0 : ℚ) ≤ (now - iv.deadline) / iv.period :=
      div_nonneg (by linarith) hp.le
    have hf : (0 : ℤ) ≤ ⌊(now - iv.deadline) / iv.period⌋ := Int.floor_nonneg.mpr h0
    have hf2 : (0 : ℚ) ≤ (⌊(now - iv.deadline) / iv.period⌋ : ℚ) := by exact_mod_cast hf
    simp only
    nlinarith

theorem execSchedule_length (iv : TickInterval) (now : ℚ) (durs : List ℚ) :
    (execSchedule iv now durs).length = durs.length := by
  induction durs generalizing iv now with
  | nil => rfl
  | cons d rest ih => simp [execSchedule, ih]

theorem execSchedule_ge (p : ℚ) (hp : 0 < p) :
    ∀ (durs : List ℚ) (iv : TickInterval) (now : ℚ), iv.period = p →
      ∀ k, k < durs.length →
        iv.deadline + k * p ≤ (execSchedule iv now durs).getD k 0 := by
  intro durs
  induction durs with
  | nil => intro iv now hper k hk; simp at hk
  | cons d rest ih =>
    intro iv now hper k hk
    cases k with
    | zero =>
      simpa [execSchedule] using TickInterval.tick_fire_ge iv now
    | succ k2 =>
      have hrec := ih (iv.tick now).2 ((iv.tick now).1 + d)
        (by rw [TickInterval.tick_period, hper]) k2 (Nat.lt_of_succ_lt_succ hk)
      have hd : iv.deadline + p ≤ (iv.tick now).2.deadline := by
        have := TickInterval.tick_deadline_ge iv now (by rw [hper]; exact hp)
        rwa [hper] at this
      have : iv.deadline + (k2 + 1 : ℕ) * p ≤ (iv.tick now).2.deadline + k2 * p := by
        push_cast
        linarith
      calc iv.deadline + (k2 + 1 : ℕ) * p
          ≤ (iv.tick now).2.deadline + k2 * p := this
        _ ≤ (execSchedule (iv.tick now).2 ((iv.tick now).1 + d) rest).getD k2 0 := hrec
        _ = (execSchedule iv now (d :: rest)).getD (k2 + 1) 0 := by
            simp [execSchedule]

/-- Claim C9: for a run of `N` rename operations at the hard-coded rate of
100 per minute, every tick completes no earlier than its schedule point
(`k * 60/100` seconds after the start for the k-th op, whatever the durations
of the intervening rename calls — missed ticks are skipped, never queued up
into a burst), the first tick completes at time 0, and so the whole run takes
at least `(N - 1) * 60/100` seconds of wall-clock time. -/
theorem executor_rate_pacing (durs : List ℚ) :
    (executorFireTimes durs).length = durs.length ∧
    (durs ≠ [] → (executorFireTimes durs).getD 0 0 = 0) ∧
    (∀ k, k < durs.length →
      (k : ℚ) * executorPeriod ≤ (executorFireTimes durs).getD k 0) ∧
    (durs ≠ [] →
      ((durs.length : ℚ) - 1) * executorPeriod ≤
        (executorFireTimes durs).getD (durs.length - 1) 0 -
          (executorFireTimes durs).getD 0 0) := by
  have hp : (0 : ℚ) < executorPeriod := by norm_num [executorPeriod]
  have hge := execSchedule_ge executorPeriod hp durs ⟨executorPeriod, 0⟩ 0 rfl
  have hbound : ∀ k, k < durs.length →
      (k : ℚ) * executorPeriod ≤ (executorFireTimes durs).getD k 0 := by
    intro k hk
    have := hge k hk
    simpa [executorFireTimes] using this
  have hhead : durs ≠ [] → (executorFireTimes durs).getD 0 0 = 0 := by
    intro hne
    match durs, hne with
    | d :: rest, _ =>
      simp [executorFireTimes, execSchedule, TickInterval.tick]
  refine ⟨execSchedule_length _ _ _, hhead, hbound, ?_⟩
  intro hne
  have hlen : 1 ≤ durs.length := by
    cases durs with
    | nil => exact absurd rfl hne
    | cons d rest => exact Nat.succ_le_succ (Nat.zero_le _)
  have hk : durs.length - 1 < durs.length := by omega
  have h1 := hbound (durs.length - 1) hk
  have hc : ((durs.length - 1 : ℕ) : ℚ) = (durs.length : ℚ) - 1 := by
    push_cast [Nat.cast_sub hlen]
    ring
  rw [hhead hne]
  rw [hc] at h1
  linarith

/-- Witness for `executor_rate_pacing`: a three-op run where the middle
rename call takes one second still has its third tick complete no earlier
than `2 * 60/100` seconds, and the first tick at time 0. -/
theorem executor_rate_pacing_witness :
    (executorFireTimes [0, 1, 0]).getD 0 0 = 0 ∧
    (2 : ℚ) * executorPeriod ≤ (executorFireTimes [0, 1, 0]).getD 2 0 ∧
    ((3 : ℚ) - 1) * executorPeriod ≤
      (executorFireTimes [0, 1, 0]).getD 2 0 - (executorFireTimes [0, 1, 0]).getD 0 0 := by
  have h := executor_rate_pacing [0, 1, 0]
  refine ⟨h.2.1 (by simp), ?_, ?_⟩
  · have h2 := h.2.2.1 2 (by norm_num)
    have hc : ((2 : ℕ) : ℚ) = (2 : ℚ) := by norm_num
    rw [hc] at h2
    exact h2
  · have h3 := h.2.2.2 (by simp)
    norm_num at h3 ⊢
    exact h3

/-!
Lookup lemmas for the two `HashMap`s of the planner.
-/

theorem alookup_mem : ∀ (l : List (String × String)) (k v : String),
    alookup k l = some v → (k, v) ∈ l := by
  intro l
  induction l with
  | nil => intro k v h; exact absurd h (by simp [alookup])
  | cons p rest ih =>
    intro k v h
    obtain ⟨a, b⟩ := p
    by_cases hp : a = k
    · subst hp
      simp [alookup] at h
      subst h
      exact List.mem_cons_self _ _
    · simp only [alookup, if_neg hp] at h
      exact List.mem_cons_of_mem _ (ih k v h)

theorem alookup_isSome : ∀ (l : List (String × String)) (k : String),
    k ∈ l.map Prod.fst → ∃ v, alookup k l = some v := by
  intro l
  induction l with
  | nil => intro k h; simp at h
  | cons p rest ih =>
    intro k h
    obtain ⟨a, b⟩ := p
    by_cases hp : a = k
    · subst hp
      exact ⟨b, by simp [alookup]⟩
    · have hmem : k ∈ rest.map Prod.fst := by
        simp only [List.map_cons, List.mem_cons] at h
        rcases h with h | h
        · exact absurd h.symm hp
        · exact h
      obtain ⟨v, hv⟩ := ih k hmem
      exact ⟨v, by simp only [alookup, if_neg hp]; exact hv⟩

theorem hmGet_mem (l : List (String × String)) (k v : String)
    (h : hmGet l k = some v) : (k, v) ∈ l :=
  List.mem_reverse.mp (alookup_mem l.reverse k v h)

theorem hmGet_isSome (l : List (String × String)) (k : String)
    (hk : k ∈ l.map Prod.fst) : ∃ v, hmGet l k = some v := by
  apply alookup_isSome
  rw [List.map_reverse, List.mem_reverse]
  exact hk

theorem mkMp_keys (emotes : List Emote) (names : List String)
    (hlen : names.length ≤ (emotes.map Emote.name).length) :
    (mkMp emotes names).map Prod.fst = names :=
  List.map_fst_zip _ _ hlen

theorem mkEm_keys (emotes : List Emote) :
    (mkEm emotes).map Prod.fst = emotes.map Emote.name := by
  simp [mkEm]

theorem walk_no_lookup_fail (emotes : List Emote) (names : List String)
    (hperm : names.Perm (emotes.map Emote.name)) (first : String)
    (hfirst : first ∈ names) :
    ∀ (fuel : Nat) (cur : String) (ops : List (String × String)) (renamed : List String),
      cur ∈ names →
      walk (mkMp emotes names) (mkEm emotes) first fuel cur ops renamed ≠
        .error .lookupFailed := by
  have hlen : names.length = (emotes.map Emote.name).length := hperm.length_eq
  have hmp_total : ∀ t ∈ names,
      ∃ o, hmGet (mkMp emotes names) t = some o ∧ o ∈ emotes.map Emote.name := by
    intro t ht
    obtain ⟨o, ho⟩ := hmGet_isSome _ t (by rw [mkMp_keys emotes names hlen.le]; exact ht)
    exact ⟨o, ho, (List.of_mem_zip (hmGet_mem _ _ _ ho)).2⟩
  have hem_total : ∀ o ∈ emotes.map Emote.name, ∃ i, hmGet (mkEm emotes) o = some i := by
    intro o ho
    exact hmGet_isSome _ o (by rw [mkEm_keys]; exact ho)
  have horig_names : ∀ o ∈ emotes.map Emote.name, o ∈ names :=
    fun o ho => hperm.mem_iff.mpr ho
  intro fuel
  induction fuel with
  | zero => intro cur ops renamed hcur; rw [walk_fuelOut]; simp
  | succ f ih =>
    intro cur ops renamed hcur
    obtain ⟨o, ho, homem⟩ := hmp_total cur hcur
    by_cases h1 : o = first
    · subst h1
      obtain ⟨fid, hfid⟩ := hem_total o homem
      rw [walk_close _ _ _ _ fid f _ _ ho hfid]
      simp
    · by_cases h2 : cur = o
      · rw [← h2] at ho
        have hne : cur ≠ first := fun hc => h1 (h2 ▸ hc)
        rw [walk_spin _ _ _ _ f _ _ ho hne]
        exact ih cur ops renamed hcur
      · obtain ⟨oid, hoid⟩ := hem_total o homem
        rw [walk_pull _ _ _ cur o oid f _ _ ho h1 h2 hoid]
        exact ih o _ _ (horig_names o homem)

theorem planLoop_no_lookup_fail (emotes : List Emote) (names : List String)
    (hperm : names.Perm (emotes.map Emote.name)) (fuel : Nat) :
    ∀ (ns : List String) (ops : List (String × String)) (renamed : List String),
      (∀ x ∈ ns, x ∈ names) →
      planLoop (mkMp emotes names) (mkEm emotes) fuel ns ops renamed ≠
        .error .lookupFailed := by
  intro ns
  induction ns with
  | nil => intro ops renamed hsub; rw [planLoop_nil]; simp
  | cons n rest ih =>
    intro ops renamed hsub
    have hn : n ∈ names := hsub n (List.mem_cons_self _ _)
    by_cases hmem : n ∈ renamed
    · rw [planLoop_skip _ _ _ _ _ _ _ hmem]
      exact ih ops renamed (fun x hx => hsub x (List.mem_cons_of_mem _ hx))
    · obtain ⟨fid, hfid⟩ := hmGet_isSome (mkEm emotes) n
        (by rw [mkEm_keys]; exact hperm.mem_iff.mp hn)
      cases hw : walk (mkMp emotes names) (mkEm emotes) n fuel n
          (ops ++ [(fid, tempName)]) renamed with
      | error e =>
        cases e with
        | lookupFailed =>
          exact absurd hw (walk_no_lookup_fail emotes names hperm n hn fuel n _ _ hn)
        | fuelExhausted =>
          rw [planLoop_walk_err _ _ _ _ fid _ _ _ _ hmem hfid hw]
          simp
      | ok v =>
        obtain ⟨ops2, renamed2⟩ := v
        rw [planLoop_walk_ok _ _ _ _ fid _ _ _ _ _ hmem hfid hw]
        exact ih ops2 renamed2 (fun x hx => hsub x (List.mem_cons_of_mem _ hx))

/-- Claim C10: whenever the shuffled name list is a permutation of the
fetched emote names — which `shuffle_slice` guarantees by construction even
when the set contains duplicate names — no `HashMap` lookup performed by the
planning loop can hit `None`: every name looked up (the cycle opener, each
walked target, each original) is a key of the corresponding map. -/
theorem plan_lookups_succeed (emotes : List Emote) (names : List String)
    (hperm : names.Perm (emotes.map Emote.name)) :
    shufflePlan emotes names ≠ .error .lookupFailed := by
  unfold shufflePlan
  split
  · simp
  · exact planLoop_no_lookup_fail emotes names hperm _ names [] [] (fun x hx => hx)

/-- Witness for `plan_lookups_succeed` on a set with duplicate names. -/
theorem plan_lookups_succeed_witness :
    shufflePlan [⟨"X", "u"⟩, ⟨"Y", "u"⟩] ["u", "u"] ≠ .error .lookupFailed :=
  plan_lookups_succeed [⟨"X", "u"⟩, ⟨"Y", "u"⟩] ["u", "u"] (by decide)

theorem zipWith_eq_map_zip {α β γ : Type} (f : α → β → γ) :
    ∀ (l1 : List α) (l2 : List β),
      List.zipWith f l1 l2 = (l1.zip l2).map fun p => f p.1 p.2 := by
  intro l1
  induction l1 with
  | nil => intro l2; rfl
  | cons x r1 ih =>
    intro l2
    cases l2 with
    | nil => rfl
    | cons y r2 => simp [List.zip_cons_cons, ih]

theorem zip_fst_fun {α β : Type} :
    ∀ (l1 : List α) (l2 : List β), l1.Nodup →
      ∀ (a : α) (b1 b2 : β), (a, b1) ∈ l1.zip l2 → (a, b2) ∈ l1.zip l2 → b1 = b2 := by
  intro l1
  induction l1 with
  | nil => intro l2 _ a b1 b2 h1; simp at h1
  | cons x r1 ih =>
    intro l2 hnd a b1 b2 h1 h2
    cases l2 with
    | nil => simp at h1
    | cons y r2 =>
      simp only [List.zip_cons_cons, List.mem_cons, Prod.mk.injEq] at h1 h2
      rcases h1 with ⟨ha1, hb1⟩ | h1 <;> rcases h2 with ⟨ha2, hb2⟩ | h2
      · rw [hb1, hb2]
      · exact absurd (ha1 ▸ (List.of_mem_zip h2).1) (List.nodup_cons.mp hnd).1
      · exact absurd (ha2 ▸ (List.of_mem_zip h1).1) (List.nodup_cons.mp hnd).1
      · exact ih r2 (List.nodup_cons.mp hnd).2 a b1 b2 h1 h2

theorem zip_snd_fun {α β : Type} :
    ∀ (l1 : List α) (l2 : List β), l2.Nodup →
      ∀ (a1 a2 : α) (b : β), (a1, b) ∈ l1.zip l2 → (a2, b) ∈ l1.zip l2 → a1 = a2 := by
  intro l1
  induction l1 with
  | nil => intro l2 _ a1 a2 b h1; simp at h1
  | cons x r1 ih =>
    intro l2 hnd a1 a2 b h1 h2
    cases l2 with
    | nil => simp at h1
    | cons y r2 =>
      simp only [List.zip_cons_cons, List.mem_cons, Prod.mk.injEq] at h1 h2
      rcases h1 with ⟨ha1, hb1⟩ | h1 <;> rcases h2 with ⟨ha2, hb2⟩ | h2
      · rw [ha1, ha2]
      · exact absurd (hb1 ▸ (List.of_mem_zip h2).2) (List.nodup_cons.mp hnd).1
      · exact absurd (hb2 ▸ (List.of_mem_zip h1).2) (List.nodup_cons.mp hnd).1
      · exact ih r2 (List.nodup_cons.mp hnd).2 a1 a2 b h1 h2

theorem applyOps_append_one (st : List (String × String))
    (ops : List (String × String)) (op : String × String) :
    applyOps st (ops ++ [op]) = applyOp (applyOps st ops) op := by
  unfold applyOps
  rw [List.foldl_append]
  rfl

theorem applyOp_stOf (f : Emote → String → String) :
    ∀ (emotes : List Emote) (names : List String) (ix nm : String),
      applyOp (stOf f emotes names) (ix, nm) =
        stOf (fun e t => if e.id = ix then nm else f e t) emotes names := by
  intro emotes
  induction emotes with
  | nil => intro names ix nm; cases names <;> rfl
  | cons e rest ih =>
    intro names ix nm
    cases names with
    | nil => rfl
    | cons t ts =>
      have h1 : applyOp (stOf f (e :: rest) (t :: ts)) (ix, nm) =
          (if e.id = ix then (e.id, nm) else (e.id, f e t)) ::
            applyOp (stOf f rest ts) (ix, nm) := rfl
      rw [h1, ih ts ix nm]
      have h2 : stOf (fun e t => if e.id = ix then nm else f e t) (e :: rest) (t :: ts) =
          (e.id, if e.id = ix then nm else f e t) ::
            stOf (fun e t => if e.id = ix then nm else f e t) rest ts := rfl
      rw [h2]
      congr 1
      split <;> rfl

theorem stOf_congr_pairs (f1 f2 : Emote → String → String) :
    ∀ (emotes : List Emote) (names : List String),
      (∀ e t, (e, t) ∈ emotes.zip names → f1 e t = f2 e t) →
      stOf f1 emotes names = stOf f2 emotes names := by
  intro emotes
  induction emotes with
  | nil => intro names _; cases names <;> rfl
  | cons e rest ih =>
    intro names hag
    cases names with
    | nil => rfl
    | cons t ts =>
      have h1 : stOf f1 (e :: rest) (t :: ts) = (e.id, f1 e t) :: stOf f1 rest ts := rfl
      have h2 : stOf f2 (e :: rest) (t :: ts) = (e.id, f2 e t) :: stOf f2 rest ts := rfl
      rw [h1, h2, hag e t (by simp [List.zip_cons_cons]),
        ih ts (fun e2 t2 hm => hag e2 t2 (by simp [List.zip_cons_cons]; right; exact hm))]

theorem mem_zip_swap : ∀ (emotes : List Emote) (names : List String) (t o : String),
    (t, o) ∈ names.zip (emotes.map Emote.name) →
    ∃ e, (e, t) ∈ emotes.zip names ∧ e.name = o := by
  intro emotes
  induction emotes with
  | nil => intro names t o h; simp at h
  | cons e rest ih =>
    intro names t o h
    cases names with
    | nil => simp at h
    | cons t0 ts =>
      simp only [List.map_cons, List.zip_cons_cons, List.mem_cons, Prod.mk.injEq] at h
      rcases h with ⟨ht, ho⟩ | h
      · exact ⟨e, by simp [List.zip_cons_cons, ht], ho.symm⟩
      · obtain ⟨e2, hm, hn⟩ := ih ts t o h
        exact ⟨e2, by simp only [List.zip_cons_cons, List.mem_cons]; right; exact hm, hn⟩

theorem mem_zip_swap2 : ∀ (emotes : List Emote) (names : List String) (e : Emote) (t : String),
    (e, t) ∈ emotes.zip names → (t, e.name) ∈ names.zip (emotes.map Emote.name) := by
  intro emotes
  induction emotes with
  | nil => intro names e t h; simp at h
  | cons e0 rest ih =>
    intro names e t h
    cases names with
    | nil => simp at h
    | cons t0 ts =>
      simp only [List.zip_cons_cons, List.mem_cons, Prod.mk.injEq] at h
      rcases h with ⟨he, ht⟩ | h
      · simp [List.zip_cons_cons, he, ht]
      · simp only [List.map_cons, List.zip_cons_cons, List.mem_cons]
        right
        exact ih ts e t h

theorem alookup_eq_of_mem_nodup : ∀ (l : List (String × String)) (k v : String),
    (k, v) ∈ l → (l.map Prod.fst).Nodup → alookup k l = some v := by
  intro l
  induction l with
  | nil => intro k v h; simp at h
  | cons p rest ih =>
    intro k v h hnd
    obtain ⟨a, b⟩ := p
    simp only [List.mem_cons, Prod.mk.injEq] at h
    simp only [List.map_cons, List.nodup_cons] at hnd
    rcases h with ⟨hk, hv⟩ | h
    · subst hk; subst hv
      simp [alookup]
    · have hak : a ≠ k := by
        intro hc
        subst hc
        exact hnd.1 (by
          have : (a, v) ∈ rest := h
          exact List.mem_map.mpr ⟨(a, v), this, rfl⟩)
      simp only [alookup, if_neg hak]
      exact ih k v h hnd.2

theorem hmGet_eq_of_mem_nodup (l : List (String × String)) (k v : String)
    (hmem : (k, v) ∈ l) (hnd : (l.map Prod.fst).Nodup) : hmGet l k = some v := by
  apply alookup_eq_of_mem_nodup
  · exact List.mem_reverse.mpr hmem
  · rw [List.map_reverse]
    exact List.nodup_reverse.mpr hnd

theorem hmGet_em_char (emotes : List Emote) (x i : String)
    (h : hmGet (mkEm emotes) x = some i) : ∃ e ∈ emotes, e.name = x ∧ e.id = i := by
  have hm := hmGet_mem _ _ _ h
  simp only [mkEm, List.mem_map, Prod.mk.injEq] at hm
  obtain ⟨e, he, hn, hi⟩ := hm
  exact ⟨e, he, hn, hi⟩

theorem hmGet_mp_of_pair (emotes : List Emote) (names : List String)
    (hnames : names.Nodup) (hlen : names.length ≤ (emotes.map Emote.name).length)
    (e : Emote) (t : String) (h : (e, t) ∈ emotes.zip names) :
    hmGet (mkMp emotes names) t = some e.name :=
  hmGet_eq_of_mem_nodup _ _ _ (mem_zip_swap2 _ _ _ _ h)
    (by rw [mkMp_keys emotes names hlen]; exact hnames)

theorem hmGet_mp_inj (emotes : List Emote) (names : List String)
    (horigs : (emotes.map Emote.name).Nodup) (t1 t2 u : String)
    (h1 : hmGet (mkMp emotes names) t1 = some u)
    (h2 : hmGet (mkMp emotes names) t2 = some u) : t1 = t2 :=
  zip_snd_fun _ _ horigs _ _ _ (hmGet_mem _ _ _ h1) (hmGet_mem _ _ _ h2)

/-!
The three state-transition lemmas, one per kind of planned operation: opening
a cycle by renaming its first item to the temp name, pulling an item into the
name just vacated, and closing the cycle by renaming the temp-holding item to
the last vacated name.
-/

theorem step_temp (emotes : List Emote) (names : List String)
    (hids : (emotes.map Emote.id).Nodup) (horigs : (emotes.map Emote.name).Nodup)
    (L : List String) (x ix : String)
    (e0 : Emote) (he0 : e0 ∈ emotes) (hname : e0.name = x) (hid : e0.id = ix) :
    applyOp (stOf (midFun L none) emotes names) (ix, tempName) =
      stOf (midFun L (some x)) emotes names := by
  rw [applyOp_stOf]
  apply stOf_congr_pairs
  intro e t hmem
  have hemem : e ∈ emotes := (List.of_mem_zip hmem).1
  by_cases hx : e.name = x
  · have he : e = e0 := List.inj_on_of_nodup_map horigs hemem he0 (by rw [hx, hname])
    have heid : e.id = ix := by rw [he, hid]
    simp [heid, midFun, hx]
  · have heid : e.id ≠ ix := by
      intro hc
      have he : e = e0 := List.inj_on_of_nodup_map hids hemem he0 (by rw [hc, hid])
      exact hx (by rw [he, hname])
    simp [midFun, heid, Ne.symm hx]

theorem step_pull (emotes : List Emote) (names : List String)
    (hids : (emotes.map Emote.id).Nodup) (horigs : (emotes.map Emote.name).Nodup)
    (L : List String) (w x ix nm : String)
    (e0 : Emote) (he0mem : (e0, nm) ∈ emotes.zip names)
    (hname : e0.name = x) (hid : e0.id = ix) (hxw : x ≠ w) :
    applyOp (stOf (midFun L (some w)) emotes names) (ix, nm) =
      stOf (midFun (x :: L) (some w)) emotes names := by
  have he0 : e0 ∈ emotes := (List.of_mem_zip he0mem).1
  have hemnd : emotes.Nodup := horigs.of_map
  rw [applyOp_stOf]
  apply stOf_congr_pairs
  intro e t hmem
  have hemem : e ∈ emotes := (List.of_mem_zip hmem).1
  by_cases hx : e.name = x
  · have he : e = e0 := List.inj_on_of_nodup_map horigs hemem he0 (by rw [hx, hname])
    have heid : e.id = ix := by rw [he, hid]
    have ht : t = nm := zip_fst_fun _ _ hemnd e t nm hmem (he ▸ he0mem)
    have hw : ¬ (w = x) := fun hc => hxw hc.symm
    simp [heid, midFun, hx, ht, hw]
  · have heid : e.id ≠ ix := by
      intro hc
      have he : e = e0 := List.inj_on_of_nodup_map hids hemem he0 (by rw [hc, hid])
      exact hx (by rw [he, hname])
    have hmL : (e.name ∈ x :: L) ↔ (e.name ∈ L) := by simp [hx]
    simp only [midFun, if_neg heid, hmL]

theorem step_close (emotes : List Emote) (names : List String)
    (hids : (emotes.map Emote.id).Nodup) (horigs : (emotes.map Emote.name).Nodup)
    (L : List String) (w iw nm : String)
    (e0 : Emote) (he0mem : (e0, nm) ∈ emotes.zip names)
    (hname : e0.name = w) (hid : e0.id = iw) :
    applyOp (stOf (midFun L (some w)) emotes names) (iw, nm) =
      stOf (midFun (w :: L) none) emotes names := by
  have he0 : e0 ∈ emotes := (List.of_mem_zip he0mem).1
  have hemnd : emotes.Nodup := horigs.of_map
  rw [applyOp_stOf]
  apply stOf_congr_pairs
  intro e t hmem
  have hemem : e ∈ emotes := (List.of_mem_zip hmem).1
  by_cases hx : e.name = w
  · have he : e = e0 := List.inj_on_of_nodup_map horigs hemem he0 (by rw [hx, hname])
    have heid : e.id = iw := by rw [he, hid]
    have ht : t = nm := zip_fst_fun _ _ hemnd e t nm hmem (he ▸ he0mem)
    simp [heid, midFun, hx, ht]
  · have heid : e.id ≠ iw := by
      intro hc
      have he : e = e0 := List.inj_on_of_nodup_map hids hemem he0 (by rw [hc, hid])
      exact hx (by rw [he, hname])
    have hmL : (e.name ∈ w :: L) ↔ (e.name ∈ L) := by simp [hx]
    simp only [midFun, if_neg heid, hmL, Ne.symm hx]
    simp [Ne.symm hx]

/-- The no-two-items-share-a-name property of every mid-plan state, provided
no item is named `"temp"` and the resolved list is closed backwards under the
target-to-original map except at the currently walked cycle opener. -/
theorem midState_namesOk (emotes : List Emote) (names : List String)
    (horigs : (emotes.map Emote.name).Nodup)
    (hperm : names.Perm (emotes.map Emote.name))
    (htemp : tempName ∉ names)
    (L : List String) (tw : Option String)
    (hclosure : ∀ t u, hmGet (mkMp emotes names) t = some u → u ∈ L →
      (t ∈ L ∨ tw = some t)) :
    namesOk (stOf (midFun L tw) emotes names) := by
  have hnames : names.Nodup := hperm.nodup_iff.mpr horigs
  have hlen : names.length ≤ (emotes.map Emote.name).length := hperm.length_eq.le
  have hemlen : emotes.length ≤ names.length := by
    have := hperm.length_eq
    simp only [List.length_map] at this
    omega
  have hemnd : emotes.Nodup := horigs.of_map
  have htempo : tempName ∉ emotes.map Emote.name := fun hc => htemp (hperm.mem_iff.mpr hc)
  have hzipnd : (emotes.zip names).Nodup := by
    have hkeys : (emotes.zip names).map Prod.fst = emotes :=
      List.map_fst_zip _ _ hemlen
    exact List.Nodup.of_map Prod.fst (by rw [hkeys]; exact hemnd)
  unfold namesOk stOf
  rw [List.map_zipWith, zipWith_eq_map_zip]
  apply List.Nodup.map_on ?inj hzipnd
  intro p1 hp1 p2 hp2 hval
  obtain ⟨e1, t1⟩ := p1
  obtain ⟨e2, t2⟩ := p2
  simp only at hval
  have he1 : e1 ∈ emotes := (List.of_mem_zip hp1).1
  have he2 : e2 ∈ emotes := (List.of_mem_zip hp2).1
  have ht1 : t1 ∈ names := (List.of_mem_zip hp1).2
  have ht2 : t2 ∈ names := (List.of_mem_zip hp2).2
  have hmp1 : hmGet (mkMp emotes names) t1 = some e1.name :=
    hmGet_mp_of_pair emotes names hnames hlen e1 t1 hp1
  have hmp2 : hmGet (mkMp emotes names) t2 = some e2.name :=
    hmGet_mp_of_pair emotes names hnames hlen e2 t2 hp2
  have nameEq : e1.name = e2.name → (e1, t1) = (e2, t2) := by
    intro hn
    have he : e1 = e2 := List.inj_on_of_nodup_map horigs he1 he2 hn
    subst he
    have ht : t1 = t2 := zip_fst_fun _ _ hemnd e1 t1 t2 hp1 hp2
    rw [ht]
  unfold midFun at hval
  by_cases a1 : tw = some e1.name <;> by_cases a2 : tw = some e2.name
  · exact nameEq (by
      have := a1.symm.trans a2
      exact Option.some.inj this)
  · rw [if_pos a1, if_neg a2] at hval
    by_cases b2 : e2.name ∈ L
    · rw [if_pos b2] at hval
      exact absurd (hval ▸ ht2) htemp
    · rw [if_neg b2] at hval
      exact absurd (hval ▸ (List.mem_map.mpr ⟨e2, he2, rfl⟩)) htempo
  · rw [if_neg a1, if_pos a2] at hval
    by_cases b1 : e1.name ∈ L
    · rw [if_pos b1] at hval
      exact absurd (hval ▸ ht1) htemp
    · rw [if_neg b1] at hval
      exact absurd (hval ▸ (List.mem_map.mpr ⟨e1, he1, rfl⟩)) htempo
  · rw [if_neg a1, if_neg a2] at hval
    by_cases b1 : e1.name ∈ L <;> by_cases b2 : e2.name ∈ L
    · rw [if_pos b1, if_pos b2] at hval
      have he : e1 = e2 := zip_snd_fun _ _ hnames e1 e2 t2 (hval ▸ hp1) hp2
      subst he
      rw [hval]
    · rw [if_pos b1, if_neg b2] at hval
      rcases hclosure t1 e1.name hmp1 b1 with hin | htw
      · exact absurd (hval ▸ hin) b2
      · exact absurd (hval ▸ htw) a2
    · rw [if_neg b1, if_pos b2] at hval
      rcases hclosure t2 e2.name hmp2 b2 with hin | htw
      · exact absurd (hval ▸ hin) b1
      · exact absurd (hval ▸ htw) a1
    · rw [if_neg b1, if_neg b2] at hval
      exact nameEq hval

/-!
Chain lemmas: the visited list of a cycle walk, read head-to-tail, steps
backwards through the target-to-original map, and while the cycle is open
every element's image and preimage under the map stay inside the list except
at its two ends.
-/

theorem chain_next (g : String → Option String) :
    ∀ (vis : List String) (h : String),
      List.Chain' (fun a b => g b = some a) vis → vis.head? = some h →
      ∀ t ∈ vis, t = h ∨ ∃ u, g t = some u ∧ u ∈ vis := by
  intro vis
  induction vis with
  | nil => intro h _ _ t ht; simp at ht
  | cons a rest ih =>
    intro h hchain hhead t ht
    have ha : h = a := by simpa using hhead.symm
    subst ha
    rcases List.mem_cons.mp ht with rfl | ht2
    · exact Or.inl rfl
    · cases rest with
      | nil => simp at ht2
      | cons b rest2 =>
        have hrel : g b = some h := (List.chain'_cons.mp hchain).1
        have hchain2 : List.Chain' (fun a b => g b = some a) (b :: rest2) :=
          (List.chain'_cons.mp hchain).2
        rcases ih b hchain2 rfl t ht2 with rfl | ⟨u, hgu, hu⟩
        · exact Or.inr ⟨h, hrel, List.mem_cons_self _ _⟩
        · exact Or.inr ⟨u, hgu, List.mem_cons_of_mem _ hu⟩

theorem chain_prev (g : String → Option String) :
    ∀ (vis : List String),
      List.Chain' (fun a b => g b = some a) vis →
      ∀ u ∈ vis, vis.getLast? = some u ∨ ∃ t ∈ vis.tail, g t = some u := by
  intro vis
  induction vis with
  | nil => intro _ u hu; simp at hu
  | cons a rest ih =>
    intro hchain u hu
    rcases List.mem_cons.mp hu with rfl | hu2
    · cases rest with
      | nil => exact Or.inl rfl
      | cons b rest2 =>
        exact Or.inr ⟨b, List.mem_cons_self _ _, (List.chain'_cons.mp hchain).1⟩
    · cases rest with
      | nil => simp at hu2
      | cons b rest2 =>
        have hchain2 : List.Chain' (fun a b => g b = some a) (b :: rest2) :=
          (List.chain'_cons.mp hchain).2
        rcases ih hchain2 u hu2 with hl | ⟨t, htt, hgt⟩
        · exact Or.inl (by rw [List.getLast?_cons_cons]; exact hl)
        · exact Or.inr ⟨t, List.mem_cons_of_mem _ htt, hgt⟩

/-- While a walk is open, the map's preimage of any name in the visited chain
(minus the cycle opener, which sits at the end of the chain) is either also in
that region or is the chain's head, which is the opener's name `w` only when
the walk is about to close.  Stated for the resolved-plus-visited list that
the state invariant carries. -/
theorem walk_closure_prop (emotes : List Emote) (names : List String)
    (horigs : (emotes.map Emote.name).Nodup)
    (vis resolvedL : List String) (w : String)
    (hchain : List.Chain' (fun a b => hmGet (mkMp emotes names) b = some a) vis)
    (hlast : vis.getLast? = some w)
    (hnodup : vis.Nodup)
    (hrescl : ∀ t u, hmGet (mkMp emotes names) t = some u →
      (t ∈ resolvedL ↔ u ∈ resolvedL)) :
    ∀ t u, hmGet (mkMp emotes names) t = some u → u ∈ resolvedL ++ vis.dropLast →
      (t ∈ resolvedL ++ vis.dropLast ∨ some w = some t) := by
  intro t u htu hu
  rcases List.mem_append.mp hu with hu | hu
  · exact Or.inl (List.mem_append.mpr (Or.inl ((hrescl t u htu).mpr hu)))
  · have hvis : vis = vis.dropLast ++ [w] :=
      (List.dropLast_append_getLast? w (by rw [hlast]; rfl)).symm
    have huvis : u ∈ vis := (List.dropLast_sublist vis).subset hu
    have huw : u ≠ w := by
      intro rfl2
      subst rfl2
      have hnd2 : (vis.dropLast ++ [u]).Nodup := hvis ▸ hnodup
      exact (List.disjoint_of_nodup_append hnd2) hu (List.mem_singleton_self u)
    rcases chain_prev _ vis hchain u huvis with hl | ⟨t2, ht2, hgt2⟩
    · exact absurd (Option.some.inj (hlast.symm.trans hl)) (Ne.symm huw)
    · have ht : t = t2 := hmGet_mp_inj emotes names horigs t t2 u htu hgt2
      subst ht
      have htvis : t ∈ vis := (List.tail_sublist vis).subset ht2
      rw [hvis] at htvis
      rcases List.mem_append.mp htvis with h | h
      · exact Or.inl (List.mem_append.mpr (Or.inr h))
      · exact Or.inr (by rw [List.mem_singleton.mp h])

/-- The name about to be pulled into the walk is not yet in the visited
chain. -/
theorem walk_next_fresh (emotes : List Emote) (names : List String)
    (horigs : (emotes.map Emote.name).Nodup)
    (vis : List String) (cur w o : String)
    (hchain : List.Chain' (fun a b => hmGet (mkMp emotes names) b = some a) vis)
    (hhead : vis.head? = some cur) (hlast : vis.getLast? = some w)
    (hnodup : vis.Nodup)
    (hcur : hmGet (mkMp emotes names) cur = some o) (how : o ≠ w) :
    o ∉ vis := by
  intro ho
  rcases chain_prev _ vis hchain o ho with hl | ⟨t2, ht2, hgt2⟩
  · exact how (Option.some.inj (hl.symm.trans hlast))
  · have hct : cur = t2 := hmGet_mp_inj emotes names horigs cur t2 o hcur hgt2
    cases vis with
    | nil => simp at hhead
    | cons a rest =>
      have ha : a = cur := by simpa using hhead
      subst ha
      rw [← hct] at ht2
      exact (List.nodup_cons.mp hnodup).1 ht2

/-- Once the walk has closed (the head's image is the opener `w` at the end
of the chain), the visited chain is carried into itself by the map in both
directions. -/
theorem cycle_closed (emotes : List Emote) (names : List String)
    (horigs : (emotes.map Emote.name).Nodup)
    (vis : List String) (cur w : String)
    (hchain : List.Chain' (fun a b => hmGet (mkMp emotes names) b = some a) vis)
    (hhead : vis.head? = some cur) (hlast : vis.getLast? = some w)
    (hclose : hmGet (mkMp emotes names) cur = some w) :
    ∀ t u, hmGet (mkMp emotes names) t = some u → (t ∈ vis ↔ u ∈ vis) := by
  intro t u htu
  constructor
  · intro ht
    rcases chain_next _ vis cur hchain hhead t ht with rfl | ⟨u2, hgu, hu2⟩
    · have : u = w := Option.some.inj (htu.symm.trans hclose)
      subst this
      exact List.mem_of_mem_getLast? (by rw [hlast]; rfl)
    · have : u = u2 := Option.some.inj (htu.symm.trans hgu)
      subst this
      exact hu2
  · intro hu
    rcases chain_prev _ vis hchain u hu with hl | ⟨t2, ht2, hgt2⟩
    · have huw : u = w := Option.some.inj (hl.symm.trans hlast)
      subst huw
      have : t = cur := hmGet_mp_inj emotes names horigs t cur u htu hclose
      subst this
      exact List.mem_of_mem_head? (by rw [hhead]; rfl)
    · have : t = t2 := hmGet_mp_inj emotes names horigs t t2 u htu hgt2
      subst this
      exact (List.tail_sublist vis).subset ht2

theorem stOf_midFun_congr (emotes : List Emote) (names : List String)
    (L1 L2 : List String) (tw : Option String) (h : ∀ x, x ∈ L1 ↔ x ∈ L2) :
    stOf (midFun L1 tw) emotes names = stOf (midFun L2 tw) emotes names := by
  apply stOf_congr_pairs
  intro e t _
  unfold midFun
  by_cases h1 : tw = some e.name
  · simp [h1]
  · simp [h1, h e.name]

theorem prefixes_snoc (init ops : List (String × String)) (op : String × String)
    (hold : ∀ k, namesOk (applyOps init (ops.take k)))
    (hnew : namesOk (applyOps init (ops ++ [op]))) :
    ∀ k, namesOk (applyOps init ((ops ++ [op]).take k)) := by
  intro k
  by_cases hk : k ≤ ops.length
  · rw [List.take_append_of_le_length hk]
    exact hold k
  · rw [List.take_of_length_le (by simp; omega)]
    exact hnew

theorem dropLast_cons_ne (a : String) (l : List String) (h : l ≠ []) :
    (a :: l).dropLast = a :: l.dropLast := by
  cases l with
  | nil => exact absurd rfl h
  | cons b r => rfl

theorem mem_iff_dropLast_or_last (vis : List String) (w : String)
    (hl : vis.getLast? = some w) : ∀ x, x ∈ vis ↔ (x ∈ vis.dropLast ∨ x = w) := by
  intro x
  have h : vis.dropLast ++ [w] = vis := List.dropLast_append_getLast? w (by rw [hl]; rfl)
  conv_lhs => rw [← h]
  simp

/-- The full invariant of the inner cycle walk.  `vis` is the chain of target
names visited so far (head = the current target, last = the name `w` that
opened the cycle), `resolvedL` the names of the items already carrying their
final name from previously completed cycles, `ops` the operations emitted so
far and `renamed0` the renamed-set contents from before this walk.  The walk
completes within the given fuel, extends the chain to the full cycle of `w`,
emits one pull per new chain element plus the closing op, and leaves every
visited item at its target name. -/
theorem walk_invariant (emotes : List Emote) (names : List String)
    (hids : (emotes.map Emote.id).Nodup)
    (horigs : (emotes.map Emote.name).Nodup)
    (hperm : names.Perm (emotes.map Emote.name))
    (w : String) :
    ∀ (fuel : Nat) (vis resolvedL renamed0 : List String) (cur : String)
      (ops : List (String × String)),
      vis.head? = some cur →
      vis.getLast? = some w →
      List.Chain' (fun a b => hmGet (mkMp emotes names) b = some a) vis →
      vis.Nodup →
      (∀ x ∈ vis, x ∈ names) →
      (∀ x ∈ vis, x ∉ resolvedL) →
      (∀ x ∈ resolvedL, x ∈ names) →
      (∀ t u, hmGet (mkMp emotes names) t = some u → (t ∈ resolvedL ↔ u ∈ resolvedL)) →
      names.length + 1 ≤ fuel + vis.length →
      applyOps (initState emotes) ops =
        stOf (midFun (resolvedL ++ vis.dropLast) (some w)) emotes names →
      (tempName ∉ names → ∀ k, namesOk (applyOps (initState emotes) (ops.take k))) →
      ∃ (visF : List String) (opsF : List (String × String)),
        walk (mkMp emotes names) (mkEm emotes) w fuel cur ops
            (vis.dropLast ++ renamed0) = .ok (opsF, visF.dropLast ++ renamed0) ∧
        (∃ ext, visF = ext ++ vis) ∧
        visF.getLast? = some w ∧
        visF.Nodup ∧
        (∀ x ∈ visF, x ∈ names) ∧
        (∀ x ∈ visF, x ∉ resolvedL) ∧
        (∀ t u, hmGet (mkMp emotes names) t = some u → (t ∈ visF ↔ u ∈ visF)) ∧
        opsF.length + vis.length = ops.length + visF.length + 1 ∧
        applyOps (initState emotes) opsF =
          stOf (midFun (resolvedL ++ visF) none) emotes names ∧
        (tempName ∉ names → ∀ k, namesOk (applyOps (initState emotes) (opsF.take k))) := by
  have hnames : names.Nodup := hperm.nodup_iff.mpr horigs
  have hlenle : names.length ≤ (emotes.map Emote.name).length := hperm.length_eq.le
  have hmp_total : ∀ t ∈ names,
      ∃ o, hmGet (mkMp emotes names) t = some o ∧ o ∈ emotes.map Emote.name := by
    intro t ht
    obtain ⟨o, ho⟩ := hmGet_isSome _ t (by rw [mkMp_keys emotes names hlenle]; exact ht)
    exact ⟨o, ho, (List.of_mem_zip (hmGet_mem _ _ _ ho)).2⟩
  have hem_total : ∀ o ∈ emotes.map Emote.name, ∃ i, hmGet (mkEm emotes) o = some i := by
    intro o ho
    exact hmGet_isSome _ o (by rw [mkEm_keys]; exact ho)
  have horign : ∀ o ∈ emotes.map Emote.name, o ∈ names :=
    fun o ho => hperm.mem_iff.mpr ho
  have hpair : ∀ cur2 x fid, hmGet (mkMp emotes names) cur2 = some x →
      hmGet (mkEm emotes) x = some fid →
      ∃ e0, (e0, cur2) ∈ emotes.zip names ∧ e0.name = x ∧ e0.id = fid := by
    intro cur2 x fid hmp hem
    obtain ⟨e, hezip, hename⟩ := mem_zip_swap emotes names cur2 x (hmGet_mem _ _ _ hmp)
    obtain ⟨e2, he2, he2n, he2i⟩ := hmGet_em_char emotes x fid hem
    have hee : e = e2 := List.inj_on_of_nodup_map horigs (List.of_mem_zip hezip).1 he2
      (by rw [hename, he2n])
    exact ⟨e, hezip, hename, by rw [hee, he2i]⟩
  intro fuel
  induction fuel with
  | zero =>
    intro vis resolvedL renamed0 cur ops _ _ _ hnodup hsub _ _ _ hfuel _ _
    exfalso
    have hle : vis.length ≤ names.length :=
      (List.subperm_of_subset hnodup (fun x hx => hsub x hx)).length_le
    omega
  | succ f ih =>
    intro vis resolvedL renamed0 cur ops hhead hlast hchain hnodup hsub hdisj hressub
      hrescl hfuel hstate hpref
    have hvisne : vis ≠ [] := by
      intro h
      rw [h] at hhead
      simp at hhead
    have hcurvis : cur ∈ vis := List.mem_of_mem_head? (by rw [hhead]; rfl)
    have hcurn : cur ∈ names := hsub cur hcurvis
    obtain ⟨o, ho, hoorig⟩ := hmp_total cur hcurn
    by_cases how : o = w
    · -- the walk closes: the current target's original holder is the opener
      subst how
      obtain ⟨fid, hfid⟩ := hem_total o (hperm.mem_iff.mp
        (hsub o (List.mem_of_mem_getLast? (by rw [hlast]; rfl))))
      have hstate2 : applyOps (initState emotes) (ops ++ [(fid, cur)]) =
          stOf (midFun (resolvedL ++ vis) none) emotes names := by
        rw [applyOps_append_one, hstate]
        obtain ⟨e0, hez, hen, hei⟩ := hpair cur o fid ho hfid
        rw [step_close emotes names hids horigs (resolvedL ++ vis.dropLast) o fid cur
          e0 hez hen hei]
        apply stOf_midFun_congr
        intro x
        have hm := mem_iff_dropLast_or_last vis o hlast x
        simp only [List.mem_cons, List.mem_append]
        rw [hm]
        tauto
      have hcycle : ∀ t u, hmGet (mkMp emotes names) t = some u → (t ∈ vis ↔ u ∈ vis) :=
        cycle_closed emotes names horigs vis cur o hchain hhead hlast ho
      have hok2 : tempName ∉ names →
          namesOk (applyOps (initState emotes) (ops ++ [(fid, cur)])) := by
        intro ht
        rw [hstate2]
        apply midState_namesOk emotes names horigs hperm ht (resolvedL ++ vis) none
        intro t u htu hu
        left
        rcases List.mem_append.mp hu with h | h
        · exact List.mem_append.mpr (Or.inl ((hrescl t u htu).mpr h))
        · exact List.mem_append.mpr (Or.inr ((hcycle t u htu).mpr h))
      refine ⟨vis, ops ++ [(fid, cur)],
        by rw [walk_close _ _ _ _ fid f _ _ ho hfid],
        ⟨[], rfl⟩, hlast, hnodup, hsub, hdisj, hcycle,
        by simp only [List.length_append, List.length_cons, List.length_nil]; omega,
        hstate2,
        fun ht => prefixes_snoc _ _ _ (hpref ht) (hok2 ht)⟩
    · by_cases hco : cur = o
      · -- the continue branch would spin forever; impossible on valid input
        exfalso
        cases vis with
        | nil => exact hvisne rfl
        | cons a rest =>
          have ha : a = cur := by simpa using hhead
          subst ha
          have hoa : hmGet (mkMp emotes names) a = some a := by
            rw [← hco] at ho
            exact ho
          cases rest with
          | nil =>
            have hw : a = w := by simpa using hlast
            exact how (by rw [← hco, hw])
          | cons b rest2 =>
            have hrel : hmGet (mkMp emotes names) b = some a :=
              (List.chain'_cons.mp hchain).1
            have hob : a = b := hmGet_mp_inj emotes names horigs a b a hoa hrel
            exact (List.nodup_cons.mp hnodup).1 (by rw [hob]; exact List.mem_cons_self b rest2)
      · -- pull: the item originally named o is renamed into the vacated cur
        have hofresh : o ∉ vis :=
          walk_next_fresh emotes names horigs vis cur w o hchain hhead hlast hnodup ho how
        obtain ⟨oid, hoid⟩ := hem_total o hoorig
        have honames : o ∈ names := horign o hoorig
        have hodisj : o ∉ resolvedL := fun hc => hdisj cur hcurvis ((hrescl cur o ho).mpr hc)
        obtain ⟨e0, hez, hen, hei⟩ := hpair cur o oid ho hoid
        have hstate2 : applyOps (initState emotes) (ops ++ [(oid, cur)]) =
            stOf (midFun (resolvedL ++ (o :: vis).dropLast) (some w)) emotes names := by
          rw [applyOps_append_one, hstate,
            step_pull emotes names hids horigs (resolvedL ++ vis.dropLast) w o oid cur
              e0 hez hen hei how]
          apply stOf_midFun_congr
          intro x
          rw [dropLast_cons_ne o vis hvisne]
          simp only [List.mem_cons, List.mem_append]
          tauto
        have hchain2 : List.Chain'
            (fun a b => hmGet (mkMp emotes names) b = some a) (o :: vis) := by
          cases vis with
          | nil => exact absurd rfl hvisne
          | cons a rest =>
            have ha : a = cur := by simpa using hhead
            exact List.chain'_cons.mpr ⟨by rw [ha]; exact ho, hchain⟩
        have hlast2 : (o :: vis).getLast? = some w := by
          cases vis with
          | nil => exact absurd rfl hvisne
          | cons a rest => rw [List.getLast?_cons_cons]; exact hlast
        have hnodup2 : (o :: vis).Nodup := List.nodup_cons.mpr ⟨hofresh, hnodup⟩
        have hok2 : tempName ∉ names →
            namesOk (applyOps (initState emotes) (ops ++ [(oid, cur)])) := by
          intro ht
          rw [hstate2]
          exact midState_namesOk emotes names horigs hperm ht _ (some w)
            (walk_closure_prop emotes names horigs (o :: vis) resolvedL w hchain2
              hlast2 hnodup2 hrescl)
        have hrec := ih (o :: vis) resolvedL renamed0 o (ops ++ [(oid, cur)]) rfl hlast2
          hchain2 hnodup2
          (by
            intro x hx
            rcases List.mem_cons.mp hx with rfl | hx2
            · exact honames
            · exact hsub x hx2)
          (by
            intro x hx
            rcases List.mem_cons.mp hx with rfl | hx2
            · exact hodisj
            · exact hdisj x hx2)
          hressub hrescl
          (by simp only [List.length_cons]; omega)
          hstate2
          (fun ht => prefixes_snoc _ _ _ (hpref ht) (hok2 ht))
        obtain ⟨visF, opsF, hwres, ⟨ext, hext⟩, hlastF, hnodupF, hsubF, hdisjF, hclosF,
          hlenF, hstateF, hprefF⟩ := hrec
        rw [dropLast_cons_ne o vis hvisne, List.cons_append] at hwres
        refine ⟨visF, opsF, ?_, ⟨ext ++ [o], by rw [hext, List.append_assoc]; rfl⟩,
          hlastF, hnodupF, hsubF, hdisjF, hclosF, ?_, hstateF, hprefF⟩
        · rw [walk_pull _ _ _ cur o oid f _ _ ho how hco hoid]
          exact hwres
        · simp only [List.length_cons, List.length_append, List.length_nil] at hlenF ⊢
          omega

theorem stOf_target : ∀ (emotes : List Emote) (names : List String),
    stOf (fun _ t => t) emotes names = (emotes.map Emote.id).zip names := by
  intro emotes
  induction emotes with
  | nil => intro names; cases names <;> rfl
  | cons e rest ih =>
    intro names
    cases names with
    | nil => rfl
    | cons t ts =>
      show (e.id, t) :: stOf (fun _ t => t) rest ts = (e.id, t) :: (rest.map Emote.id).zip ts
      rw [ih ts]

theorem initState_midFun : ∀ (emotes : List Emote) (names : List String),
    emotes.length ≤ names.length →
    stOf (midFun [] none) emotes names = initState emotes := by
  intro emotes
  induction emotes with
  | nil => intro names _; cases names <;> rfl
  | cons e rest ih =>
    intro names hlen
    cases names with
    | nil => simp at hlen
    | cons t ts =>
      show (e.id, midFun [] none e t) :: stOf (midFun [] none) rest ts = _
      have hm : midFun [] none e t = e.name := rfl
      rw [hm, ih ts (by simpa using Nat.le_of_succ_le_succ hlen)]
      rfl

theorem namesOk_initState (emotes : List Emote)
    (horigs : (emotes.map Emote.name).Nodup) : namesOk (initState emotes) := by
  unfold namesOk initState
  rw [List.map_map]
  exact horigs

/-- The full invariant of the outer planning loop over the suffix `ns` of the
shuffled name list: `resolvedL` records (as a duplicate-free list) exactly the
names of the items already renamed to their targets — the processed prefix `P`
plus the current `renamed` set — and the operations emitted so far realize
that intermediate state, never exceeding two per resolved item. -/
theorem planLoop_invariant (emotes : List Emote) (names : List String)
    (hids : (emotes.map Emote.id).Nodup)
    (horigs : (emotes.map Emote.name).Nodup)
    (hperm : names.Perm (emotes.map Emote.name)) :
    ∀ (ns P : List String) (ops : List (String × String)) (renamed resolvedL : List String),
      names = P ++ ns →
      (∀ x, x ∈ resolvedL ↔ (x ∈ P ∨ x ∈ renamed)) →
      resolvedL.Nodup →
      (∀ x ∈ resolvedL, x ∈ names) →
      (∀ t u, hmGet (mkMp emotes names) t = some u → (t ∈ resolvedL ↔ u ∈ resolvedL)) →
      ops.length ≤ 2 * resolvedL.length →
      applyOps (initState emotes) ops = stOf (midFun resolvedL none) emotes names →
      (tempName ∉ names → ∀ k, namesOk (applyOps (initState emotes) (ops.take k))) →
      ∃ opsF : List (String × String),
        planLoop (mkMp emotes names) (mkEm emotes) (names.length + 1) ns ops renamed =
          .ok opsF ∧
        opsF.length ≤ 2 * names.length ∧
        applyOps (initState emotes) opsF = stOf (fun _ t => t) emotes names ∧
        (tempName ∉ names → ∀ k, namesOk (applyOps (initState emotes) (opsF.take k))) := by
  have hnames : names.Nodup := hperm.nodup_iff.mpr horigs
  have hem_total : ∀ o ∈ emotes.map Emote.name, ∃ i, hmGet (mkEm emotes) o = some i := by
    intro o ho
    exact hmGet_isSome _ o (by rw [mkEm_keys]; exact ho)
  intro ns
  induction ns with
  | nil =>
    intro P ops renamed resolvedL hP hiff hresnd hressub _ hopslen hstate hpref
    have hPnames : P = names := by rw [hP, List.append_nil]
    have hreslen : resolvedL.length ≤ names.length :=
      (List.subperm_of_subset hresnd (fun x hx => hressub x hx)).length_le
    refine ⟨ops, planLoop_nil _ _ _ _ _, by omega, ?_, hpref⟩
    rw [hstate]
    apply stOf_congr_pairs
    intro e t hmem
    have hm : e.name ∈ resolvedL := by
      apply (hiff e.name).mpr
      left
      rw [hPnames]
      exact hperm.mem_iff.mpr (List.mem_map.mpr ⟨e, (List.of_mem_zip hmem).1, rfl⟩)
    simp [midFun, hm]
  | cons nm rest ih =>
    intro P ops renamed resolvedL hP hiff hresnd hressub hrescl hopslen hstate hpref
    have hnm_names : nm ∈ names := by
      rw [hP]
      exact List.mem_append.mpr (Or.inr (List.mem_cons_self _ _))
    have hP2 : names = (P ++ [nm]) ++ rest := by
      rw [hP, List.append_assoc, List.singleton_append]
    by_cases hmem : nm ∈ renamed
    · rw [planLoop_skip _ _ _ _ _ _ _ hmem]
      apply ih (P ++ [nm]) ops renamed resolvedL hP2 ?_ hresnd hressub hrescl hopslen
        hstate hpref
      intro x
      rw [hiff x]
      simp only [List.mem_append, List.mem_singleton]
      constructor
      · rintro (h | h)
        · exact Or.inl (Or.inl h)
        · exact Or.inr h
      · rintro ((h | h) | h)
        · exact Or.inl h
        · exact Or.inr (h ▸ hmem)
        · exact Or.inr h
    · have hnmP : nm ∉ P := by
        intro hc
        have hx := hnames
        rw [hP] at hx
        exact (List.disjoint_of_nodup_append hx) hc (List.mem_cons_self _ _)
      have hnmres : nm ∉ resolvedL := by
        intro hc
        rcases (hiff nm).mp hc with h | h
        · exact hnmP h
        · exact hmem h
      obtain ⟨fid, hfid⟩ := hem_total nm (hperm.mem_iff.mp hnm_names)
      obtain ⟨e0, he0, he0n, he0i⟩ := hmGet_em_char emotes nm fid hfid
      have hstate2 : applyOps (initState emotes) (ops ++ [(fid, tempName)]) =
          stOf (midFun resolvedL (some nm)) emotes names := by
        rw [applyOps_append_one, hstate,
          step_temp emotes names hids horigs resolvedL nm fid e0 he0 he0n he0i]
      have hok2 : tempName ∉ names →
          namesOk (applyOps (initState emotes) (ops ++ [(fid, tempName)])) := by
        intro ht
        rw [hstate2]
        apply midState_namesOk emotes names horigs hperm ht resolvedL (some nm)
        intro t u htu hu
        exact Or.inl ((hrescl t u htu).mpr hu)
      have hwalk := walk_invariant emotes names hids horigs hperm nm
        (names.length + 1) [nm] resolvedL renamed nm (ops ++ [(fid, tempName)])
        rfl rfl (List.chain'_singleton _) (by simp)
        (by intro x hx; rw [List.mem_singleton.mp hx]; exact hnm_names)
        (by intro x hx; rw [List.mem_singleton.mp hx]; exact hnmres)
        hressub hrescl
        (by simp)
        (by simpa using hstate2)
        (fun ht => prefixes_snoc _ _ _ (hpref ht) (hok2 ht))
      obtain ⟨visF, opsF1, hwres, ⟨ext, hext⟩, hlastF, hnodupF, hsubF, hdisjF, hclosF,
        hlenF, hstateF, hprefF⟩ := hwalk
      have hwres2 : walk (mkMp emotes names) (mkEm emotes) nm (names.length + 1) nm
          (ops ++ [(fid, tempName)]) renamed = .ok (opsF1, visF.dropLast ++ renamed) := by
        simpa using hwres
      rw [planLoop_walk_ok _ _ _ nm fid rest ops opsF1 renamed
        (visF.dropLast ++ renamed) hmem hfid hwres2]
      have hvisne : 1 ≤ visF.length := by
        rw [hext]
        simp only [List.length_append, List.length_cons, List.length_nil]
        omega
      have hiff2 : ∀ x, x ∈ resolvedL ++ visF ↔
          (x ∈ P ++ [nm] ∨ x ∈ visF.dropLast ++ renamed) := by
        intro x
        have hm := mem_iff_dropLast_or_last visF nm hlastF x
        simp only [List.mem_append, List.mem_singleton]
        rw [hiff x, hm]
        constructor
        · rintro ((h | h) | (h | h))
          · exact Or.inl (Or.inl h)
          · exact Or.inr (Or.inr h)
          · exact Or.inr (Or.inl h)
          · exact Or.inl (Or.inr h)
        · rintro ((h | h) | (h | h))
          · exact Or.inl (Or.inl h)
          · exact Or.inr (Or.inr h)
          · exact Or.inr (Or.inl h)
          · exact Or.inl (Or.inr h)
      have hnd2 : (resolvedL ++ visF).Nodup :=
        hresnd.append hnodupF (fun a ha hav => hdisjF a hav ha)
      have hsub2 : ∀ x ∈ resolvedL ++ visF, x ∈ names := by
        intro x hx
        rcases List.mem_append.mp hx with h | h
        · exact hressub x h
        · exact hsubF x h
      have hcl2 : ∀ t u, hmGet (mkMp emotes names) t = some u →
          (t ∈ resolvedL ++ visF ↔ u ∈ resolvedL ++ visF) := by
        intro t u htu
        have h1 := hrescl t u htu
        have h2 := hclosF t u htu
        simp only [List.mem_append]
        rw [h1, h2]
      have hlen2 : opsF1.length ≤ 2 * (resolvedL ++ visF).length := by
        simp only [List.length_append, List.length_cons, List.length_nil] at hlenF ⊢
        omega
      exact ih (P ++ [nm]) opsF1 (visF.dropLast ++ renamed) (resolvedL ++ visF) hP2
        hiff2 hnd2 hsub2 hcl2 hlen2 hstateF hprefF

/-- Master correctness of the planning phase on valid input: unique ids,
unique names, and a shuffled name list that is a permutation of the
originals. -/
theorem shufflePlan_master (emotes : List Emote) (names : List String)
    (hids : (emotes.map Emote.id).Nodup)
    (horigs : (emotes.map Emote.name).Nodup)
    (hperm : names.Perm (emotes.map Emote.name)) :
    ∃ opsF : List (String × String),
      shufflePlan emotes names = .ok opsF ∧
      opsF.length ≤ 2 * emotes.length ∧
      applyOps (initState emotes) opsF = (emotes.map Emote.id).zip names ∧
      (tempName ∉ names → ∀ k, namesOk (applyOps (initState emotes) (opsF.take k))) := by
  have hlen : names.length = emotes.length := by
    have := hperm.length_eq
    simpa using this
  by_cases hempty : names.isEmpty
  · have hn : names = [] := List.isEmpty_iff.mp hempty
    subst hn
    have he : emotes = [] := by
      have h0 : emotes.length = 0 := by simpa using hlen.symm
      exact List.length_eq_zero.mp h0
    subst he
    refine ⟨[], by rfl, by simp, by rfl, ?_⟩
    intro _ k
    have h1 : applyOps (initState ([] : List Emote)) (([] : List (String × String)).take k) =
        initState [] := by simp [applyOps]
    rw [h1]
    exact namesOk_initState [] (by simp)
  · have hplan : shufflePlan emotes names =
        planLoop (mkMp emotes names) (mkEm emotes) (names.length + 1) names [] [] := by
      unfold shufflePlan
      rw [if_neg hempty]
    obtain ⟨opsF, hok, hlenF, hstateF, hprefF⟩ :=
      planLoop_invariant emotes names hids horigs hperm names [] [] [] []
        (by simp) (by simp) (by simp) (by simp)
        (by intro t u _; simp)
        (by simp)
        (by
          show applyOps (initState emotes) [] = _
          exact (initState_midFun emotes names (by omega)).symm)
        (by
          intro _ k
          have h1 : applyOps (initState emotes) (([] : List (String × String)).take k) =
              initState emotes := by simp [applyOps]
          rw [h1]
          exact namesOk_initState emotes horigs)
    refine ⟨opsF, by rw [hplan]; exact hok, by omega, ?_, hprefF⟩
    rw [hstateF, stOf_target]

/-- Claim C1, counterexample: on a perfectly valid two-item input (unique
names and a true target permutation) whose names happen to include the
planner's fixed temp name, the first operation renames item E2 to `"temp"`
while item E1 still holds `"temp"`: after that prefix two items hold the same
name (the final state is nonetheless the target one here). -/
theorem plan_prefix_collision_cex :
    shufflePlan [⟨"E1", "temp"⟩, ⟨"E2", "x"⟩] ["x", "temp"] =
      .ok [("E2", "temp"), ("E1", "x"), ("E2", "temp")] ∧
    ¬ namesOk (applyOps (initState [⟨"E1", "temp"⟩, ⟨"E2", "x"⟩])
        ([("E2", "temp"), ("E1", "x"), ("E2", "temp")].take 1)) := by
  exact ⟨rfl, by decide⟩

/-- Claim C1, amended: with unique ids and unique names, the shuffled list a
permutation of the names, and — as the counterexample forces — no item named
by the planner's fixed temporary name `"temp"`, the planner succeeds and
applying its RenameOp sequence strictly in order turns the original
assignment into exactly the target assignment (item `i` ends holding
`names[i]`), and after no prefix of the sequence do two items hold the same
name. -/
theorem plan_realizes_permutation (emotes : List Emote) (names : List String)
    (hids : (emotes.map Emote.id).Nodup)
    (horigs : (emotes.map Emote.name).Nodup)
    (hperm : names.Perm (emotes.map Emote.name))
    (htemp : tempName ∉ names) :
    ∃ ops : List (String × String),
      shufflePlan emotes names = .ok ops ∧
      applyOps (initState emotes) ops = (emotes.map Emote.id).zip names ∧
      (∀ k, namesOk (applyOps (initState emotes) (ops.take k))) := by
  obtain ⟨ops, hok, _, hstate, hpref⟩ := shufflePlan_master emotes names hids horigs hperm
  exact ⟨ops, hok, hstate, hpref htemp⟩

/-- Witness for `plan_realizes_permutation` on the two-item swap. -/
theorem plan_realizes_permutation_witness :
    ∃ ops : List (String × String),
      shufflePlan [⟨"A", "x"⟩, ⟨"B", "y"⟩] ["y", "x"] = .ok ops ∧
      applyOps (initState [⟨"A", "x"⟩, ⟨"B", "y"⟩]) ops =
        ([⟨"A", "x"⟩, ⟨"B", "y"⟩].map Emote.id).zip ["y", "x"] ∧
      (∀ k, namesOk (applyOps (initState [⟨"A", "x"⟩, ⟨"B", "y"⟩]) (ops.take k))) :=
  plan_realizes_permutation [⟨"A", "x"⟩, ⟨"B", "y"⟩] ["y", "x"]
    (by decide) (by decide) (by decide) (by decide)

/-- Claim C4, amended: on valid input the operation count never exceeds
`2 * n`.  The claimed sharper bound `n + c`, with `c` only the non-trivial
cycles, fails because every cycle — each fixed point included — costs one
temp-name operation on top of one operation per item. -/
theorem plan_opcount_le_two_n (emotes : List Emote) (names : List String)
    (hids : (emotes.map Emote.id).Nodup)
    (horigs : (emotes.map Emote.name).Nodup)
    (hperm : names.Perm (emotes.map Emote.name))
    (ops : List (String × String)) (hok : shufflePlan emotes names = .ok ops) :
    ops.length ≤ 2 * emotes.length := by
  obtain ⟨opsF, hokF, hlenF, _, _⟩ := shufflePlan_master emotes names hids horigs hperm
  have heq : ops = opsF := by
    rw [hok] at hokF
    exact Except.ok.inj hokF
  rw [heq]
  exact hlenF

/-- Witness for `plan_opcount_le_two_n` on the three-cycle. -/
theorem plan_opcount_le_two_n_witness :
    ([("B", "temp"), ("A", "y"), ("C", "x"), ("B", "z")] : List (String × String)).length ≤
      2 * ([⟨"A", "x"⟩, ⟨"B", "y"⟩, ⟨"C", "z"⟩] : List Emote).length :=
  plan_opcount_le_two_n [⟨"A", "x"⟩, ⟨"B", "y"⟩, ⟨"C", "z"⟩] ["y", "z", "x"]
    (by decide) (by decide) (by decide) _ (by rfl)

/-- Claim C5: when the shuffled names are a valid permutation of the unique
current names (ids unique per the data model), the cycle walk always closes
within the `names.length + 1` fuel bound — so the Rust loop terminates, and
in particular the self-referential `cur_target == original` guard branch is
never reached — and the planner returns an operation list. -/
theorem plan_terminates (emotes : List Emote) (names : List String)
    (hids : (emotes.map Emote.id).Nodup)
    (horigs : (emotes.map Emote.name).Nodup)
    (hperm : names.Perm (emotes.map Emote.name)) :
    ∃ ops : List (String × String), shufflePlan emotes names = .ok ops := by
  obtain ⟨ops, hok, _, _, _⟩ := shufflePlan_master emotes names hids horigs hperm
  exact ⟨ops, hok⟩

/-- Witness for `plan_terminates` on a two-item swap. -/
theorem plan_terminates_witness :
    ∃ ops : List (String × String), shufflePlan [⟨"E", "p"⟩, ⟨"F", "q"⟩] ["q", "p"] = .ok ops :=
  plan_terminates [⟨"E", "p"⟩, ⟨"F", "q"⟩] ["q", "p"] (by decide) (by decide) (by decide)
